import Mathlib

/-!
Verification development for the Neural Echo attention-visualization
pipeline (frontend JavaScript, `static/js/`).  The numerical code is
shallowly embedded: JavaScript numbers are modelled as exact rationals
(`ℚ`), 2-D arrays as `List (List ℚ)`, and `Math.random()` as an ambient
sample stream.  Definitions follow the source files
(`attention-heatmap.js`, `network-vis.js`, `network-vis-canvas.js`,
`app.js`, `embedding-space.js`) method by method.
-/

namespace NeuralEcho

/-- A dense attention matrix, as built by the JavaScript code:
a list of rows, each row a list of rational values. -/
abbrev Matrix := List (List ℚ)

/-- Reading `matrix[i][j]`; out-of-bounds reads default to `0`
(the JavaScript code only reads in bounds). -/
def entry (m : Matrix) (i j : ℕ) : ℚ :=
  ((m[i]?.getD [])[j]?).getD 0

/-- `Array(rows).fill().map(() => Array(cols).fill(0))`:
the zero-initialized `rows × cols` buffer. -/
def zeroMatrix (rows cols : ℕ) : Matrix :=
  List.replicate rows (List.replicate cols 0)

/-- The assignment `matrix[i][j] = v` (a no-op out of bounds; the source
guards all writes to be in bounds). -/
def setEntry (m : Matrix) (i j : ℕ) (v : ℚ) : Matrix :=
  m.set i ((m.getD i []).set j v)

/-- A matrix is a well-formed `rows × cols` buffer. -/
def Dims (m : Matrix) (rows cols : ℕ) : Prop :=
  m.length = rows ∧ ∀ row ∈ m, row.length = cols

/-! ### Sparse reconstruction (`AttentionHeatmap.reconstructSparseMatrix`) -/

/-- The sparse tensor form `{indices, values, shape: [rows, cols]}` of the
inference-service interface. -/
structure SparseWeights where
  indices : List ℕ
  values : List ℚ
  rows : ℕ
  cols : ℕ

/-- One iteration of the `indices.forEach` loop in
`reconstructSparseMatrix`: compute `i = Math.floor(flatIndex / cols)`,
`j = flatIndex % cols`, and write `values[idx]` when `i < rows && j < cols`. -/
def applySparsePair (rows cols : ℕ) (m : Matrix) (p : ℕ × ℚ) : Matrix :=
  if p.1 / cols < rows ∧ p.1 % cols < cols then
    setEntry m (p.1 / cols) (p.1 % cols) p.2
  else m

/-- `AttentionHeatmap.reconstructSparseMatrix`: zero-initialize a
`rows × cols` buffer and walk the sparse index list once. -/
def reconstructSparseMatrix (sd : SparseWeights) : Matrix :=
  (sd.indices.zip sd.values).foldl (applySparsePair sd.rows sd.cols)
    (zeroMatrix sd.rows sd.cols)

/-! Helper lemmas about `setEntry` and the reconstruction fold. -/

theorem dims_zeroMatrix (rows cols : ℕ) : Dims (zeroMatrix rows cols) rows cols := by
  constructor
  · simp [zeroMatrix]
  · intro row hrow
    simp only [zeroMatrix] at hrow
    rw [List.eq_of_mem_replicate hrow]
    simp

theorem dims_setEntry {m : Matrix} {rows cols : ℕ} (h : Dims m rows cols)
    (i j : ℕ) (v : ℚ) : Dims (setEntry m i j v) rows cols := by
  obtain ⟨hlen, hrows⟩ := h
  by_cases hi : i < m.length
  · constructor
    · simpa [setEntry] using hlen
    · intro row hrow
      rcases List.mem_or_eq_of_mem_set hrow with h1 | h1
      · exact hrows row h1
      · subst h1
        rw [List.length_set, List.getD_eq_getElem _ _ hi]
        exact hrows _ (List.getElem_mem hi)
  · rw [setEntry, List.set_eq_of_length_le (Nat.le_of_not_lt hi)]
    exact ⟨hlen, hrows⟩

theorem entry_setEntry_self {m : Matrix} {rows cols : ℕ} (h : Dims m rows cols)
    {i j : ℕ} (hi : i < rows) (hj : j < cols) (v : ℚ) :
    entry (setEntry m i j v) i j = v := by
  obtain ⟨hlen, hrows⟩ := h
  have hi' : i < m.length := by omega
  have hrow : (m.getD i []).length = cols := by
    rw [List.getD_eq_getElem _ _ hi']
    exact hrows _ (List.getElem_mem hi')
  unfold entry setEntry
  rw [List.getElem?_set_self hi', Option.getD_some,
    List.getElem?_set_self (by omega), Option.getD_some]

theorem entry_setEntry_ne {m : Matrix} {i j i' j' : ℕ}
    (hne : i ≠ i' ∨ j ≠ j') (v : ℚ) :
    entry (setEntry m i j v) i' j' = entry m i' j' := by
  unfold entry setEntry
  by_cases hii : i = i'
  · subst hii
    have hj : j ≠ j' := hne.resolve_left (by simp)
    by_cases hi : i < m.length
    · rw [List.getElem?_set_self hi, Option.getD_some,
        List.getElem?_set_ne hj, List.getD_eq_getElem?_getD]
    · rw [List.set_eq_of_length_le (Nat.le_of_not_lt hi)]
  · rw [List.getElem?_set_ne hii]

theorem entry_zeroMatrix (rows cols i j : ℕ) : entry (zeroMatrix rows cols) i j = 0 := by
  unfold entry zeroMatrix
  rw [List.getElem?_replicate]
  by_cases hi : i < rows
  · rw [if_pos hi, Option.getD_some, List.getElem?_replicate]
    by_cases hj : j < cols
    · rw [if_pos hj, Option.getD_some]
    · rw [if_neg hj, Option.getD_none]
  · rw [if_neg hi, Option.getD_none]
    simp

theorem dims_foldl_applySparsePair (rows cols : ℕ) (ps : List (ℕ × ℚ)) :
    ∀ m : Matrix, Dims m rows cols →
      Dims (ps.foldl (applySparsePair rows cols) m) rows cols := by
  induction ps with
  | nil => intro m h; exact h
  | cons p ps ih =>
    intro m h
    rw [List.foldl_cons]
    apply ih
    unfold applySparsePair
    split
    · exact dims_setEntry h _ _ _
    · exact h

/-- The value the reconstruction fold leaves at a fixed flat position `t`:
the value of the last pair listing `t`, else the accumulated default
(writes in the loop are last-write-wins). -/
def lastVal (ps : List (ℕ × ℚ)) (t : ℕ) (dflt : ℚ) : ℚ :=
  ps.foldl (fun acc p => if p.1 = t then p.2 else acc) dflt

theorem lastVal_of_not_mem {ps : List (ℕ × ℚ)} {t : ℕ} (h : t ∉ ps.map Prod.fst)
    (d : ℚ) : lastVal ps t d = d := by
  induction ps generalizing d with
  | nil => rfl
  | cons q ps ih =>
    simp only [List.map_cons, List.mem_cons, not_or] at h
    rw [lastVal, List.foldl_cons, if_neg (by exact fun hq => h.1 hq.symm)]
    exact ih h.2 d

theorem lastVal_of_nodup {ps : List (ℕ × ℚ)} (hnd : (ps.map Prod.fst).Nodup)
    {p : ℕ × ℚ} (hp : p ∈ ps) (d : ℚ) : lastVal ps p.1 d = p.2 := by
  induction ps generalizing d with
  | nil => cases hp
  | cons q ps ih =>
    rw [List.map_cons, List.nodup_cons] at hnd
    rcases List.mem_cons.mp hp with h1 | h1
    · subst h1
      rw [lastVal, List.foldl_cons, if_pos rfl]
      exact lastVal_of_not_mem hnd.1 _
    · have hne : q.1 ≠ p.1 := by
        intro he
        exact hnd.1 (he ▸ List.mem_map_of_mem Prod.fst h1)
      rw [lastVal, List.foldl_cons, if_neg hne]
      exact ih hnd.2 h1 d

theorem entry_foldl_applySparsePair {rows cols : ℕ} (ps : List (ℕ × ℚ))
    {i j : ℕ} (hi : i < rows) (hj : j < cols) :
    ∀ m : Matrix, Dims m rows cols →
      entry (ps.foldl (applySparsePair rows cols) m) i j
        = lastVal ps (i * cols + j) (entry m i j) := by
  have hcols : 0 < cols := by omega
  induction ps with
  | nil => intro m _; rfl
  | cons p ps ih =>
    intro m hm
    rw [List.foldl_cons, lastVal, List.foldl_cons]
    have hstep : entry (applySparsePair rows cols m p) i j
        = if p.1 = i * cols + j then p.2 else entry m i j := by
      by_cases ht : p.1 = i * cols + j
      · have hdiv : p.1 / cols = i := by
          rw [ht, Nat.add_comm, Nat.mul_comm i cols, Nat.add_mul_div_left _ _ hcols,
            Nat.div_eq_of_lt hj, Nat.zero_add]
        have hmod : p.1 % cols = j := by
          rw [ht, Nat.add_comm, Nat.add_mul_mod_self_right, Nat.mod_eq_of_lt hj]
        rw [if_pos ht]
        unfold applySparsePair
        rw [hdiv, hmod, if_pos ⟨hi, hj⟩]
        exact entry_setEntry_self hm hi hj p.2
      · rw [if_neg ht]
        unfold applySparsePair
        split
        · apply entry_setEntry_ne
          by_contra hcon
          push_neg at hcon
          obtain ⟨h1, h2⟩ := hcon
          have hdm := Nat.div_add_mod p.1 cols
          rw [h1, h2] at hdm
          exact ht (by rw [← hdm, Nat.mul_comm])
        · rfl
    have hdm : Dims (applySparsePair rows cols m p) rows cols := by
      unfold applySparsePair
      split
      · exact dims_setEntry hm _ _ _
      · exact hm
    rw [ih _ hdm, hstep]
    rfl

/-- C1 (amended): for a sparse tensor whose indices are pairwise distinct,
the reconstruction is a `rows × cols` matrix in which every in-range listed
index position holds exactly its listed value, every position not listed is
exactly `0`, and indices `≥ rows × cols` are silently dropped (they affect
nothing; no error is raised). -/
theorem c1_sparse_reconstruction_roundTrip (sd : SparseWeights)
    (hlen : sd.values.length = sd.indices.length)
    (hnodup : sd.indices.Nodup) :
    ((reconstructSparseMatrix sd).length = sd.rows ∧
      ∀ row ∈ reconstructSparseMatrix sd, row.length = sd.cols) ∧
    (∀ p ∈ sd.indices.zip sd.values, p.1 < sd.rows * sd.cols →
      entry (reconstructSparseMatrix sd) (p.1 / sd.cols) (p.1 % sd.cols) = p.2) ∧
    (∀ i j, i < sd.rows → j < sd.cols → (i * sd.cols + j) ∉ sd.indices →
      entry (reconstructSparseMatrix sd) i j = 0) := by
  have hfst : (sd.indices.zip sd.values).map Prod.fst = sd.indices :=
    List.map_fst_zip _ _ (le_of_eq hlen.symm)
  have hdims : Dims (reconstructSparseMatrix sd) sd.rows sd.cols :=
    dims_foldl_applySparsePair _ _ _ _ (dims_zeroMatrix _ _)
  refine ⟨⟨hdims.1, hdims.2⟩, ?_, ?_⟩
  · intro p hp hrange
    have hcols : 0 < sd.cols := by
      rcases Nat.eq_zero_or_pos sd.cols with h | h
      · rw [h, Nat.mul_zero] at hrange; omega
      · exact h
    have hi : p.1 / sd.cols < sd.rows :=
      Nat.div_lt_of_lt_mul (Nat.mul_comm sd.rows sd.cols ▸ hrange)
    have hj : p.1 % sd.cols < sd.cols := Nat.mod_lt _ hcols
    have hkey := entry_foldl_applySparsePair (sd.indices.zip sd.values) hi hj
      (zeroMatrix sd.rows sd.cols) (dims_zeroMatrix _ _)
    have ht : p.1 / sd.cols * sd.cols + p.1 % sd.cols = p.1 := by
      have hdm := Nat.div_add_mod p.1 sd.cols
      rw [Nat.mul_comm] at hdm
      exact hdm
    rw [reconstructSparseMatrix, hkey, ht, entry_zeroMatrix]
    exact lastVal_of_nodup (by rw [hfst]; exact hnodup) hp 0
  · intro i j hi hj hnot
    have hkey := entry_foldl_applySparsePair (sd.indices.zip sd.values) hi hj
      (zeroMatrix sd.rows sd.cols) (dims_zeroMatrix _ _)
    rw [reconstructSparseMatrix, hkey, entry_zeroMatrix]
    exact lastVal_of_not_mem (by rw [hfst]; exact hnot) 0

/-- A concrete sparse tensor with a duplicate index, for the C1 counterexample. -/
def sparseDupInput : SparseWeights :=
  ⟨[0, 0], [1, 2], 1, 2⟩

/-- C1 counterexample: the claim as stated fails on a sparse tensor with a
duplicate listed index.  In `sparseDupInput` every index is `< rows × cols`
and the pair `(index 0, value 1)` is listed, yet re-reading position
`(0 / cols, 0 % cols)` of the reconstruction yields `2`, not the listed `1`
(the second write to the same flat index wins). -/
theorem c1_sparse_reconstruction_roundTrip_counterexample :
    (∀ idx ∈ sparseDupInput.indices, idx < sparseDupInput.rows * sparseDupInput.cols) ∧
    (0, (1 : ℚ)) ∈ sparseDupInput.indices.zip sparseDupInput.values ∧
    entry (reconstructSparseMatrix sparseDupInput)
      (0 / sparseDupInput.cols) (0 % sparseDupInput.cols) ≠ 1 := by
  refine ⟨by decide, by decide, ?_⟩
  decide

/-- A concrete sparse tensor (including one out-of-range index) for the C1
witness. -/
def sparseWitnessInput : SparseWeights :=
  ⟨[2, 5, 99], [1/2, 1/4, 7], 2, 2⟩

/-- Witness for C1: the amended round-trip theorem applied to
`sparseWitnessInput`. -/
theorem c1_sparse_reconstruction_roundTrip_witness :
    (sparseWitnessInput.values.length = sparseWitnessInput.indices.length ∧
      sparseWitnessInput.indices.Nodup) ∧
    (((reconstructSparseMatrix sparseWitnessInput).length = sparseWitnessInput.rows ∧
      ∀ row ∈ reconstructSparseMatrix sparseWitnessInput,
        row.length = sparseWitnessInput.cols) ∧
    (∀ p ∈ sparseWitnessInput.indices.zip sparseWitnessInput.values,
      p.1 < sparseWitnessInput.rows * sparseWitnessInput.cols →
      entry (reconstructSparseMatrix sparseWitnessInput)
        (p.1 / sparseWitnessInput.cols) (p.1 % sparseWitnessInput.cols) = p.2) ∧
    (∀ i j, i < sparseWitnessInput.rows → j < sparseWitnessInput.cols →
      (i * sparseWitnessInput.cols + j) ∉ sparseWitnessInput.indices →
      entry (reconstructSparseMatrix sparseWitnessInput) i j = 0)) :=
  ⟨⟨by decide, by decide⟩,
    c1_sparse_reconstruction_roundTrip sparseWitnessInput (by decide) (by decide)⟩

/-! ### Edge selection (`network-vis.js`, the retained-mode / SVG backend) -/

/-- An edge as pushed by `NetworkVisualization.processFullAttention`:
`{source: i, target: j, value: weights[i][j], strength: normalizeWeight(...)}`. -/
@[ext]
structure Link where
  source : ℕ
  target : ℕ
  value : ℚ
  strength : ℚ
deriving DecidableEq

/-- `NetworkVisualization.calculateThreshold` on an already-flattened value
list: sort ascending and return `sorted[Math.floor(sorted.length * 0.75)] || 0`
(for a number, `|| 0` only turns a missing element into `0`). -/
def calculateThreshold (values : List ℚ) : ℚ :=
  let sorted := values.insertionSort (· ≤ ·)
  sorted.getD (3 * sorted.length / 4) 0

/-- `Math.max` on two (non-NaN) numbers. -/
def jsMax (a b : ℚ) : ℚ := if a ≤ b then b else a

/-- `Math.min` on two (non-NaN) numbers. -/
def jsMin (a b : ℚ) : ℚ := if b ≤ a then b else a

theorem jsMax_eq_max (a b : ℚ) : jsMax a b = max a b := (max_def a b).symm

theorem jsMin_eq_min (a b : ℚ) : jsMin a b = min a b := by
  rw [jsMin, min_def]
  rcases le_or_lt a b with h | h
  · rcases eq_or_lt_of_le h with he | hlt
    · simp [he]
    · rw [if_neg (not_le.mpr hlt), if_pos h]
  · rw [if_pos h.le, if_neg (not_le.mpr h)]

/-- `NetworkVisualization.normalizeWeight`: `Math.min(1, Math.max(0, weight * 5))`. -/
def normalizeWeight (weight : ℚ) : ℚ :=
  jsMin 1 (jsMax 0 (weight * 5))

/-- `NetworkVisualization.processFullAttention`: double loop over the dense
matrix, keeping cells with `i !== j && weights[i][j] > threshold`, where the
threshold is computed from the flattened matrix (`[...values].flat()`). -/
def processFullAttention (weights : Matrix) : List Link :=
  let threshold := calculateThreshold weights.flatten
  (List.range weights.length).flatMap fun i =>
    (List.range (weights.getD i []).length).filterMap fun j =>
      if i ≠ j ∧ threshold < entry weights i j then
        some ⟨i, j, entry weights i j, normalizeWeight (entry weights i j)⟩
      else none

/-- Modelled from the spec words of C2 (not from the source): the 75th
percentile of only the off-diagonal values. -/
def offDiagThreshold (weights : Matrix) : ℚ :=
  let offDiag := (List.range weights.length).flatMap fun i =>
    (List.range (weights.getD i []).length).filterMap fun j =>
      if i ≠ j then some (entry weights i j) else none
  let sorted := offDiag.insertionSort (· ≤ ·)
  sorted.getD (3 * sorted.length / 4) 0

/-! Helper lemmas for the edge-selection proofs. -/

theorem filterMap_ite {α β : Type} (p : α → Prop) [DecidablePred p] (f : α → β) :
    ∀ l : List α,
      (l.filterMap fun a => if p a then some (f a) else none)
        = (l.filter fun a => decide (p a)).map f := by
  intro l
  induction l with
  | nil => rfl
  | cons a l ih => by_cases h : p a <;> simp [List.filterMap_cons, h, ih]

theorem list_range_map_sum {M : Type} [AddCommMonoid M] (n : ℕ) (f : ℕ → M) :
    ((List.range n).map f).sum = ∑ i ∈ Finset.range n, f i := by
  induction n with
  | zero => rfl
  | succ n ih =>
    rw [List.range_succ, List.map_append, List.sum_append, Finset.sum_range_succ, ih]
    simp

theorem list_range_filter_length (n : ℕ) (p : ℕ → Prop) [DecidablePred p] :
    ((List.range n).filter fun j => decide (p j)).length
      = ∑ j ∈ Finset.range n, if p j then 1 else 0 := by
  induction n with
  | zero => rfl
  | succ n ih =>
    rw [List.range_succ, List.filter_append, List.length_append,
      Finset.sum_range_succ, ih]
    by_cases h : p n <;> simp [h]

theorem mem_processFullAttention {weights : Matrix} {e : Link}
    (he : e ∈ processFullAttention weights) :
    e.value = entry weights e.source e.target ∧
      e.strength = normalizeWeight e.value ∧ e.source ≠ e.target ∧
      calculateThreshold weights.flatten < e.value := by
  simp only [processFullAttention, List.mem_flatMap, List.mem_filterMap,
    List.mem_range] at he
  obtain ⟨i, _, j, _, hif⟩ := he
  by_cases hc : i ≠ j ∧ calculateThreshold weights.flatten < entry weights i j
  · rw [if_pos hc, Option.some_inj] at hif
    subst hif
    exact ⟨rfl, rfl, hc.1, hc.2⟩
  · rw [if_neg hc] at hif
    cases hif


theorem entry_eq_getD (m : Matrix) (i j : ℕ) :
    entry m i j = (m.getD i []).getD j 0 := by
  rw [entry, ← List.getD_eq_getElem?_getD, ← List.getD_eq_getElem?_getD]

theorem row_length_of_square {w : Matrix}
    (hsq : ∀ row ∈ w, row.length = w.length) {i : ℕ} (hi : i < w.length) :
    (w.getD i []).length = w.length := by
  rw [List.getD_eq_getElem _ _ hi]
  exact hsq _ (List.getElem_mem hi)

/-- C2 (amended): in the retained-mode backend the significance threshold is
the 75th percentile of ALL matrix values — the matrix is flattened with the
diagonal included, sorted ascending, and indexed at
`Math.floor(0.75 × count)` — and the edge set produced (there is no
cap-truncation in this backend) consists exactly of the off-diagonal cells
strictly greater than that threshold, each carrying its raw value and its
normalized strength. -/
theorem c2_percentile_edge_selection (w : Matrix)
    (hsq : ∀ row ∈ w, row.length = w.length) :
    (∀ e : Link, e ∈ processFullAttention w ↔
      (e.source < w.length ∧ e.target < w.length ∧ e.source ≠ e.target ∧
        calculateThreshold w.flatten < entry w e.source e.target ∧
        e.value = entry w e.source e.target ∧
        e.strength = normalizeWeight (entry w e.source e.target))) ∧
    (processFullAttention w).length =
      ((Finset.range w.length ×ˢ Finset.range w.length).filter
        fun p => p.1 ≠ p.2 ∧ calculateThreshold w.flatten < entry w p.1 p.2).card := by
  constructor
  · intro e
    constructor
    · intro he
      simp only [processFullAttention, List.mem_flatMap, List.mem_filterMap,
        List.mem_range] at he
      obtain ⟨i, hi, j, hj, hif⟩ := he
      by_cases hc : i ≠ j ∧ calculateThreshold w.flatten < entry w i j
      · rw [if_pos hc, Option.some_inj] at hif
        subst hif
        exact ⟨hi, (row_length_of_square hsq hi) ▸ hj, hc.1, hc.2, rfl, rfl⟩
      · rw [if_neg hc] at hif
        cases hif
    · rintro ⟨hs, ht, hne, hthr, hv, hstr⟩
      simp only [processFullAttention, List.mem_flatMap, List.mem_filterMap,
        List.mem_range]
      refine ⟨e.source, hs, e.target, ?_, ?_⟩
      · rw [row_length_of_square hsq hs]
        exact ht
      · rw [if_pos ⟨hne, hthr⟩]
        rw [Option.some_inj]
        ext <;> simp [hv, hstr]
  · simp only [processFullAttention]
    rw [List.length_flatMap, list_range_map_sum, Finset.card_filter,
      Finset.sum_product]
    apply Finset.sum_congr rfl
    intro i hi
    rw [Finset.mem_range] at hi
    simp only [Function.comp_apply]
    rw [filterMap_ite (fun j => i ≠ j ∧ calculateThreshold w.flatten < entry w i j)
      (fun j => (⟨i, j, entry w i j, normalizeWeight (entry w i j)⟩ : Link)),
      List.length_map, row_length_of_square hsq hi,
      list_range_filter_length]

/-- The concrete 3 × 3 matrix on which the code threshold (over all values)
and the spec-sentence threshold (over off-diagonal values only) select
different edge sets. -/
def percentileCounterMatrix : Matrix :=
  [[0, 1, 2], [3, 0, 4], [5, 6, 0]]

/-- C2 counterexample: the claim as stated is false.  On
`percentileCounterMatrix` the edge `(2, 0)` with value `5` is produced by
`processFullAttention` (the code threshold, computed over ALL values
including the diagonal, is `4`), yet `5` is not strictly greater than the
75th percentile of the off-diagonal values only (which is `5`), so the
produced edge set is not the set the claim describes. -/
theorem c2_percentile_edge_selection_counterexample :
    (⟨2, 0, 5, 1⟩ : Link) ∈ processFullAttention percentileCounterMatrix ∧
    ¬ offDiagThreshold percentileCounterMatrix < (5 : ℚ) := by
  constructor
  · with_unfolding_all decide
  · with_unfolding_all decide

/-- Witness for C2: the amended theorem applied to a concrete square matrix. -/
theorem c2_percentile_edge_selection_witness :
    (∀ row ∈ ([[0, 1], [1, 0]] : Matrix), row.length = ([[0, 1], [1, 0]] : Matrix).length) ∧
    ((∀ e : Link, e ∈ processFullAttention [[0, 1], [1, 0]] ↔
      (e.source < ([[0, 1], [1, 0]] : Matrix).length ∧
        e.target < ([[0, 1], [1, 0]] : Matrix).length ∧ e.source ≠ e.target ∧
        calculateThreshold ([[0, 1], [1, 0]] : Matrix).flatten
          < entry [[0, 1], [1, 0]] e.source e.target ∧
        e.value = entry [[0, 1], [1, 0]] e.source e.target ∧
        e.strength = normalizeWeight (entry [[0, 1], [1, 0]] e.source e.target))) ∧
    (processFullAttention [[0, 1], [1, 0]]).length =
      ((Finset.range ([[0, 1], [1, 0]] : Matrix).length
          ×ˢ Finset.range ([[0, 1], [1, 0]] : Matrix).length).filter
        fun p => p.1 ≠ p.2 ∧
          calculateThreshold ([[0, 1], [1, 0]] : Matrix).flatten
            < entry [[0, 1], [1, 0]] p.1 p.2).card) :=
  ⟨by decide, c2_percentile_edge_selection [[0, 1], [1, 0]] (by decide)⟩


/-- C4: every edge selected by the retained-mode backend has normalized
strength `clamp(value × 5, 0, 1) = min 1 (max 0 (value * 5))`, which always
lies in `[0, 1]`; a raw value of `0.9` normalizes to exactly `1`. -/
theorem c4_edge_strength_normalization :
    (∀ (w : Matrix) (e : Link), e ∈ processFullAttention w →
      e.strength = min 1 (max 0 (e.value * 5)) ∧
        0 ≤ e.strength ∧ e.strength ≤ 1) ∧
    normalizeWeight (9/10) = 1 := by
  constructor
  · intro w e he
    obtain ⟨hv, hs, -, -⟩ := mem_processFullAttention he
    rw [hs, normalizeWeight, jsMin_eq_min, jsMax_eq_max]
    exact ⟨rfl, le_min (by norm_num) (le_max_left _ _), min_le_left _ _⟩
  · rw [normalizeWeight, jsMin_eq_min, jsMax_eq_max]
    norm_num

/-- The concrete scenario matrix of the spec (6-token scenario, shrunk to
its essential 3 × 3 form): one off-diagonal value `0.9`, all other
off-diagonal values `0.1`. -/
def scenarioMatrix : Matrix :=
  [[0, 9/10, 1/10], [1/10, 0, 1/10], [1/10, 1/10, 0]]

/-- Witness for C4: the high-value cell survives thresholding on
`scenarioMatrix` and the theorem applies to it; its strength is exactly 1. -/
theorem c4_edge_strength_normalization_witness :
    ((⟨0, 1, 9/10, 1⟩ : Link) ∈ processFullAttention scenarioMatrix) ∧
    ((⟨0, 1, 9/10, 1⟩ : Link).strength
        = min 1 (max 0 ((⟨0, 1, 9/10, 1⟩ : Link).value * 5)) ∧
      0 ≤ (⟨0, 1, 9/10, 1⟩ : Link).strength ∧
      (⟨0, 1, 9/10, 1⟩ : Link).strength ≤ 1) :=
  ⟨by with_unfolding_all decide,
    c4_edge_strength_normalization.1 scenarioMatrix _ (by with_unfolding_all decide)⟩

/-- C10: on a square matrix whose values are all equal, the retained-mode
edge builder produces no edges: the computed 75th-percentile threshold
equals the common value and selection requires strictly greater values. -/
theorem c10_uniform_attention_no_edges (w : Matrix) (c : ℚ)
    (hsq : ∀ row ∈ w, row.length = w.length)
    (hunif : ∀ row ∈ w, ∀ x ∈ row, x = c) :
    processFullAttention w = [] := by
  by_cases hw : w = []
  · subst hw; rfl
  · have hn : 0 < w.length := List.length_pos.mpr hw
    have hmap : w.map List.length = List.replicate w.length w.length := by
      apply List.eq_replicate_iff.mpr
      refine ⟨List.length_map _ _, ?_⟩
      intro b hb
      rw [List.mem_map] at hb
      obtain ⟨row, hrow, hlen⟩ := hb
      rw [← hlen]
      exact hsq row hrow
    have hflat : w.flatten = List.replicate (w.length * w.length) c := by
      apply List.eq_replicate_iff.mpr
      constructor
      · rw [List.length_flatten, hmap, List.sum_replicate, smul_eq_mul]
      · intro b hb
        rw [List.mem_flatten] at hb
        obtain ⟨row, hrow, hbrow⟩ := hb
        exact hunif row hrow b hbrow
    have hsorted : (w.flatten).insertionSort (· ≤ ·)
        = List.replicate (w.length * w.length) c := by
      have hperm : List.Perm ((w.flatten).insertionSort (· ≤ ·))
          (List.replicate (w.length * w.length) c) :=
        hflat ▸ List.perm_insertionSort _ _
      exact List.perm_replicate.mp hperm
    have hidx : 3 * (w.length * w.length) / 4 < w.length * w.length := by
      have hpos : 0 < w.length * w.length := Nat.mul_pos hn hn
      omega
    have hthr : calculateThreshold w.flatten = c := by
      rw [calculateThreshold]
      simp only [hsorted, List.length_replicate]
      rw [List.getD_eq_getElem _ _ (by simpa using hidx)]
      simp
    simp only [processFullAttention, hthr]
    rw [List.flatMap_eq_nil_iff]
    intro i hi
    rw [List.mem_range] at hi
    rw [List.filterMap_eq_nil_iff]
    intro j hj
    rw [List.mem_range] at hj
    rw [if_neg]
    rintro ⟨-, hlt⟩
    have hrmem : w.getD i [] ∈ w := by
      rw [List.getD_eq_getElem _ _ hi]
      exact List.getElem_mem hi
    have hval : entry w i j = c := by
      rw [entry_eq_getD, List.getD_eq_getElem _ _ hj]
      exact hunif _ hrmem _ (List.getElem_mem hj)
    rw [hval] at hlt
    exact lt_irrefl c hlt

/-- Witness for C10: the uniform matrix of value 2 yields no edges. -/
theorem c10_uniform_attention_no_edges_witness :
    ((∀ row ∈ ([[2, 2], [2, 2]] : Matrix), row.length = ([[2, 2], [2, 2]] : Matrix).length) ∧
      (∀ row ∈ ([[2, 2], [2, 2]] : Matrix), ∀ x ∈ row, x = (2 : ℚ))) ∧
    processFullAttention [[2, 2], [2, 2]] = [] :=
  ⟨⟨by with_unfolding_all decide, by with_unfolding_all decide⟩,
    c10_uniform_attention_no_edges [[2, 2], [2, 2]] 2
      (by with_unfolding_all decide) (by with_unfolding_all decide)⟩


/-! ### Canvas edge selection (`network-vis-canvas.js`, the raster backend) -/

/-- An edge as pushed by `NetworkVisualizationCanvas.processData`:
`{source, target, value}` (no strength field in this backend). -/
structure CLink where
  source : ℕ
  target : ℕ
  value : ℚ
deriving DecidableEq

/-- The class default `maxLinks: options.maxLinks || 500`. -/
def canvasDefaultMaxLinks : ℕ := 500

/-- The class default `linkThreshold: options.linkThreshold || 0.1`. -/
def canvasDefaultLinkThreshold : ℚ := 1/10

/-- `app.js` passes `maxLinks: state.useCanvas ? 300 : 500` when it
constructs a network visualization. -/
def appMaxLinks (useCanvas : Bool) : ℕ := if useCanvas then 300 else 500

/-- The candidate list of the canvas dense path: the double loop bounded by
`i < weights.length && i < this.nodes.length` (same for `j`), keeping cells
with `i !== j && weights[i][j] > this.options.linkThreshold`. -/
def canvasDenseCandidates (weights : Matrix) (nodesLen : ℕ) (thr : ℚ) : List CLink :=
  (List.range (min weights.length nodesLen)).flatMap fun i =>
    (List.range (min (weights.getD i []).length nodesLen)).filterMap fun j =>
      if i ≠ j ∧ thr < entry weights i j then some ⟨i, j, entry weights i j⟩
      else none

/-- The comparator `allLinks.sort((a, b) => b.value - a.value)`: descending
by value.  `Array.prototype.sort` is stable, as is `insertionSort` under
this relation. -/
def valueGE (a b : CLink) : Prop := b.value ≤ a.value

instance : DecidableRel valueGE :=
  fun a b => inferInstanceAs (Decidable (b.value ≤ a.value))

instance : IsTotal CLink valueGE := ⟨fun a b => le_total b.value a.value⟩

instance : IsTrans CLink valueGE := ⟨fun _ _ _ hab hbc => le_trans hbc hab⟩

/-- The canvas dense path: collect candidates, sort descending by value,
`slice(0, this.options.maxLinks)`. -/
def canvasDenseLinks (weights : Matrix) (nodesLen maxLinks : ℕ) (thr : ℚ) : List CLink :=
  ((canvasDenseCandidates weights nodesLen thr).insertionSort valueGE).take maxLinks

/-- The canvas sparse path: `indices.forEach` guarded by
`linkCount < this.options.maxLinks`; a link is pushed when
`value > linkThreshold`, `i !== j` and both endpoints are in range, and
`linkCount` counts the pushes. -/
def canvasSparseLinks (sd : SparseWeights) (nodesLen maxLinks : ℕ) (thr : ℚ) : List CLink :=
  (sd.indices.zip sd.values).foldl
    (fun links p =>
      if links.length < maxLinks then
        if thr < p.2 then
          if p.1 / sd.cols ≠ p.1 % sd.cols ∧ p.1 / sd.cols < nodesLen ∧
              p.1 % sd.cols < nodesLen then
            links ++ [⟨p.1 / sd.cols, p.1 % sd.cols, p.2⟩]
          else links
        else links
      else links)
    []

/-- The sparse entries that qualify (threshold, off-diagonal, in range), in
listed order, without any cap. -/
def canvasSparseQualifying (sd : SparseWeights) (nodesLen : ℕ) (thr : ℚ) : List CLink :=
  (sd.indices.zip sd.values).filterMap fun p =>
    if thr < p.2 ∧ p.1 / sd.cols ≠ p.1 % sd.cols ∧ p.1 / sd.cols < nodesLen ∧
        p.1 % sd.cols < nodesLen then
      some ⟨p.1 / sd.cols, p.1 % sd.cols, p.2⟩
    else none

theorem canvasSparseLinks_foldl_stopped {nodesLen maxLinks : ℕ} {thr : ℚ}
    (sd : SparseWeights) (ps : List (ℕ × ℚ)) (acc : List CLink)
    (hfull : maxLinks ≤ acc.length) :
    ps.foldl
      (fun links p =>
        if links.length < maxLinks then
          if thr < p.2 then
            if p.1 / sd.cols ≠ p.1 % sd.cols ∧ p.1 / sd.cols < nodesLen ∧
                p.1 % sd.cols < nodesLen then
              links ++ [⟨p.1 / sd.cols, p.1 % sd.cols, p.2⟩]
            else links
          else links
        else links) acc = acc := by
  induction ps with
  | nil => rfl
  | cons p ps ih =>
    rw [List.foldl_cons, if_neg (by omega)]
    exact ih

theorem canvasSparseLinks_foldl_eq {nodesLen maxLinks : ℕ} {thr : ℚ}
    (sd : SparseWeights) (ps : List (ℕ × ℚ)) :
    ∀ acc : List CLink,
      ps.foldl
        (fun links p =>
          if links.length < maxLinks then
            if thr < p.2 then
              if p.1 / sd.cols ≠ p.1 % sd.cols ∧ p.1 / sd.cols < nodesLen ∧
                  p.1 % sd.cols < nodesLen then
                links ++ [⟨p.1 / sd.cols, p.1 % sd.cols, p.2⟩]
              else links
            else links
          else links) acc
      = acc ++ (ps.filterMap fun p =>
          if thr < p.2 ∧ p.1 / sd.cols ≠ p.1 % sd.cols ∧ p.1 / sd.cols < nodesLen ∧
              p.1 % sd.cols < nodesLen then
            some ⟨p.1 / sd.cols, p.1 % sd.cols, p.2⟩
          else none).take (maxLinks - acc.length) := by
  induction ps with
  | nil => intro acc; simp
  | cons p ps ih =>
    intro acc
    rw [List.foldl_cons, List.filterMap_cons]
    by_cases hcap : acc.length < maxLinks
    · rw [if_pos hcap]
      by_cases hthr : thr < p.2
      · rw [if_pos hthr]
        by_cases hcond : p.1 / sd.cols ≠ p.1 % sd.cols ∧ p.1 / sd.cols < nodesLen ∧
            p.1 % sd.cols < nodesLen
        · rw [if_pos hcond, if_pos ⟨hthr, hcond⟩, ih]
          rw [List.length_append, List.length_singleton]
          have hsub : maxLinks - acc.length = (maxLinks - (acc.length + 1)) + 1 := by
            omega
          rw [hsub, List.take_succ_cons, List.append_assoc, List.singleton_append]
        · rw [if_neg hcond, if_neg (fun hc => hcond hc.2), ih]
      · rw [if_neg hthr, if_neg (fun hc => hthr hc.1), ih]
    · rw [if_neg hcap]
      have hz : maxLinks - acc.length = 0 := by omega
      rw [canvasSparseLinks_foldl_stopped sd ps acc (by omega), hz, List.take_zero,
        List.append_nil]

/-- C3 (amended): only the raster (canvas) backend enforces an edge cap.
Its class default is `maxLinks = 500`, and the app passes 300 when it
selects the raster backend (500 otherwise, to the retained backend, which
ignores it).  On the dense form the candidates above the fixed 0.1-default
threshold are sorted descending by value and the cap-many highest-weight
candidates are kept; on the sparse form the links are instead the first
cap-many qualifying entries in listed order. -/
theorem c3_cap_enforcement :
    (∀ (w : Matrix) (nodesLen maxLinks : ℕ) (thr : ℚ),
      (canvasDenseLinks w nodesLen maxLinks thr).length
          = min maxLinks (canvasDenseCandidates w nodesLen thr).length ∧
      (∀ a ∈ canvasDenseLinks w nodesLen maxLinks thr,
        a ∈ canvasDenseCandidates w nodesLen thr) ∧
      (∀ a ∈ canvasDenseLinks w nodesLen maxLinks thr,
        ∀ b ∈ canvasDenseCandidates w nodesLen thr,
          b ∉ canvasDenseLinks w nodesLen maxLinks thr → b.value ≤ a.value)) ∧
    (∀ (sd : SparseWeights) (nodesLen maxLinks : ℕ) (thr : ℚ),
      canvasSparseLinks sd nodesLen maxLinks thr
        = (canvasSparseQualifying sd nodesLen thr).take maxLinks) ∧
    canvasDefaultMaxLinks = 500 ∧ appMaxLinks true = 300 ∧ appMaxLinks false = 500 := by
  refine ⟨?_, ?_, rfl, rfl, rfl⟩
  · intro w nodesLen maxLinks thr
    set cand := canvasDenseCandidates w nodesLen thr with hcand
    set sorted := cand.insertionSort valueGE with hsortdef
    have hperm := List.perm_insertionSort valueGE cand
    have hsorted : List.Sorted valueGE sorted := List.sorted_insertionSort valueGE cand
    refine ⟨?_, ?_, ?_⟩
    · rw [canvasDenseLinks, List.length_take, ← hcand, ← hsortdef, hperm.length_eq]
    · intro a ha
      rw [canvasDenseLinks, ← hcand, ← hsortdef] at ha
      exact hperm.mem_iff.mp (List.mem_of_mem_take ha)
    · intro a ha b hb hbnot
      rw [canvasDenseLinks, ← hcand, ← hsortdef] at ha hbnot
      have hbs : b ∈ sorted := hperm.mem_iff.mpr hb
      have hbs2 : b ∈ sorted.take maxLinks ++ sorted.drop maxLinks := by
        rw [List.take_append_drop]
        exact hbs
      have hbdrop : b ∈ sorted.drop maxLinks := by
        rcases List.mem_append.mp hbs2 with h | h
        · exact absurd h hbnot
        · exact h
      have hpw : (sorted.take maxLinks ++ sorted.drop maxLinks).Pairwise valueGE := by
        rw [List.take_append_drop]
        exact hsorted
      exact (List.pairwise_append.mp hpw).2.2 a ha b hbdrop
  · intro sd nodesLen maxLinks thr
    rw [canvasSparseLinks, canvasSparseQualifying,
      canvasSparseLinks_foldl_eq sd (sd.indices.zip sd.values) []]
    simp

/-- The sparse input for the C3 counterexample: two qualifying entries, the
first with value 2, the second with value 3. -/
def sparseCapCounterInput : SparseWeights := ⟨[1, 2], [2, 3], 2, 2⟩

/-- C3 counterexample: the claim as stated is false for the sparse form.
With cap 1 and two candidates above threshold, the canvas sparse path keeps
the FIRST listed entry (value 2), not the highest-weight candidate
(value 3). -/
theorem c3_cap_enforcement_counterexample :
    canvasSparseLinks sparseCapCounterInput 2 1 (1/10) = [⟨0, 1, 2⟩] ∧
    (⟨1, 0, 3⟩ : CLink) ∉ canvasSparseLinks sparseCapCounterInput 2 1 (1/10) ∧
    (⟨1, 0, 3⟩ : CLink) ∈ canvasSparseQualifying sparseCapCounterInput 2 (1/10) ∧
    (2 : ℚ) < 3 := by
  with_unfolding_all decide

/-- Witness for C3: the amended theorem applied to concrete dense and sparse
inputs, with all memberships discharged concretely (cap 1, two candidates:
the kept dense edge has the top value 3, the dropped one has value 2). -/
theorem c3_cap_enforcement_witness :
    ((⟨0, 1, 3⟩ : CLink) ∈ canvasDenseLinks [[0, 3], [2, 0]] 2 1 0) ∧
    ((⟨1, 0, 2⟩ : CLink) ∈ canvasDenseCandidates [[0, 3], [2, 0]] 2 0) ∧
    ((⟨1, 0, 2⟩ : CLink) ∉ canvasDenseLinks [[0, 3], [2, 0]] 2 1 0) ∧
    ((⟨1, 0, 2⟩ : CLink).value ≤ (⟨0, 1, 3⟩ : CLink).value) ∧
    canvasSparseLinks ⟨[1, 2], [4, 5], 2, 2⟩ 2 1 0
      = (canvasSparseQualifying ⟨[1, 2], [4, 5], 2, 2⟩ 2 0).take 1 :=
  ⟨by with_unfolding_all decide, by with_unfolding_all decide,
    by with_unfolding_all decide,
    (c3_cap_enforcement.1 [[0, 3], [2, 0]] 2 1 0).2.2 _
      (by with_unfolding_all decide) _ (by with_unfolding_all decide)
      (by with_unfolding_all decide),
    c3_cap_enforcement.2.1 ⟨[1, 2], [4, 5], 2, 2⟩ 2 1 0⟩


/-! ### Matrix downsampling (`AttentionHeatmap.downsampleMatrix` and
`AttentionHeatmap.processData`) -/

/-- The `sum` accumulated by the block loop of `downsampleMatrix`: the double
loop over `bi, bj < blockSize` adds `matrix[si][sj]` whenever
`si < sourceSize && sj < sourceSize`. -/
def blockSum (m : Matrix) (bs i j : ℕ) : ℚ :=
  ((List.range bs).map fun bi =>
    ((List.range bs).map fun bj =>
      if i * bs + bi < m.length ∧ j * bs + bj < m.length then
        entry m (i * bs + bi) (j * bs + bj)
      else 0).sum).sum

/-- The `count` tracked by the same loop: the number of in-bounds source
cells of the block. -/
def blockCount (m : Matrix) (bs i j : ℕ) : ℕ :=
  ((List.range bs).map fun bi =>
    ((List.range bs).map fun bj =>
      if i * bs + bi < m.length ∧ j * bs + bj < m.length then (1 : ℕ)
      else 0).sum).sum

/-- `downsampled[i][j] = count > 0 ? sum / count : 0`. -/
def downsampleCell (m : Matrix) (bs i j : ℕ) : ℚ :=
  if 0 < blockCount m bs i j then blockSum m bs i j / (blockCount m bs i j : ℚ)
  else 0

/-- `AttentionHeatmap.downsampleMatrix`, with JavaScript number semantics at
the two degenerate points made explicit:
* `sourceSize = 0`: `blockSize = Math.ceil(0 / targetSize) = 0`, so
  `actualSize = Math.ceil(0 / 0) = NaN` and `Array(NaN)` throws a
  `RangeError` — modelled as `none`;
* `targetSize = 0` (with a nonempty source): `blockSize = Infinity`,
  `actualSize = Math.ceil(sourceSize / Infinity) = 0`, giving an empty
  output — modelled as `some []`.
Otherwise `Math.ceil(a / b)` on positive integers is `(a + b - 1) / b`. -/
def downsampleMatrix (m : Matrix) (targetSize : ℕ) : Option Matrix :=
  if m.length = 0 then none
  else if targetSize = 0 then some []
  else
    let bs := (m.length + targetSize - 1) / targetSize
    let as := (m.length + bs - 1) / bs
    some ((List.range as).map fun i =>
      (List.range as).map fun j => downsampleCell m bs i j)

/-- `AttentionHeatmap.processData`, downsampling stage: downsample only when
the matrix side exceeds `maxSize = 100`. -/
def heatmapDownsampleStep (m : Matrix) : Option Matrix :=
  if 100 < m.length then downsampleMatrix m 100 else some m

/-- The in-bounds source cells of block `(i, j)`, as a flat list (the
spec-side description of what the block loop averages). -/
def blockValues (m : Matrix) (bs i j : ℕ) : List ℚ :=
  (List.range bs).flatMap fun bi =>
    (List.range bs).filterMap fun bj =>
      if i * bs + bi < m.length ∧ j * bs + bj < m.length then
        some (entry m (i * bs + bi) (j * bs + bj))
      else none

theorem sum_map_ite_one (p : ℕ → Prop) [DecidablePred p] (l : List ℕ) :
    (l.map fun x => if p x then (1 : ℕ) else 0).sum
      = (l.filter fun x => decide (p x)).length := by
  induction l with
  | nil => rfl
  | cons a l ih => by_cases h : p a <;> simp [h, ih, Nat.add_comm]

theorem sum_map_ite_val (p : ℕ → Prop) [DecidablePred p] (f : ℕ → ℚ) (l : List ℕ) :
    (l.map fun x => if p x then f x else 0).sum
      = ((l.filter fun x => decide (p x)).map f).sum := by
  induction l with
  | nil => rfl
  | cons a l ih => by_cases h : p a <;> simp [h, ih]

theorem sum_flatMap_eq (f : ℕ → List ℚ) (l : List ℕ) :
    (l.flatMap f).sum = (l.map fun a => (f a).sum).sum := by
  induction l with
  | nil => rfl
  | cons a l ih => simp [List.flatMap_cons, List.sum_append, ih]

theorem blockSum_eq (m : Matrix) (bs i j : ℕ) :
    blockSum m bs i j = (blockValues m bs i j).sum := by
  rw [blockValues, sum_flatMap_eq, blockSum]
  apply congrArg
  apply List.map_congr_left
  intro bi _
  rw [filterMap_ite
    (fun bj => i * bs + bi < m.length ∧ j * bs + bj < m.length)
    (fun bj => entry m (i * bs + bi) (j * bs + bj)),
    sum_map_ite_val]

theorem blockCount_eq (m : Matrix) (bs i j : ℕ) :
    blockCount m bs i j = (blockValues m bs i j).length := by
  rw [blockValues, List.length_flatMap, blockCount]
  apply congrArg
  apply List.map_congr_left
  intro bi _
  simp only [Function.comp_apply]
  rw [filterMap_ite
    (fun bj => i * bs + bi < m.length ∧ j * bs + bj < m.length)
    (fun bj => entry m (i * bs + bi) (j * bs + bj)),
    List.length_map, sum_map_ite_one]

theorem entry_map_range {n : ℕ} (f : ℕ → ℕ → ℚ) {i j : ℕ} (hi : i < n) (hj : j < n) :
    entry ((List.range n).map fun i => (List.range n).map fun j => f i j) i j
      = f i j := by
  unfold entry
  simp [List.getElem?_map, List.getElem?_range, hi, hj]


theorem entry_eq_getElem {m : Matrix} {i j : ℕ} (h1 : i < m.length)
    (h2 : j < m[i].length) : entry m i j = m[i][j] := by
  unfold entry
  rw [List.getElem?_eq_getElem h1, Option.getD_some,
    List.getElem?_eq_getElem h2, Option.getD_some]

theorem mul_lt_of_lt_ceil {s bs i : ℕ} (hbs : 0 < bs)
    (hi : i < (s + bs - 1) / bs) : i * bs < s := by
  have h2 : (i + 1) * bs ≤ s + bs - 1 := (Nat.le_div_iff_mul_le hbs).mp hi
  have h3 : (i + 1) * bs = i * bs + bs := by ring
  omega

/-- C5 (amended): for every nonempty square source matrix and positive
target maximum side, the downsampler succeeds with
`blockSize = ceil(sourceSize / targetSize)` and output side
`ceil(sourceSize / blockSize)`, every output cell is the arithmetic mean of
only the in-bounds source cells of its block (the divisor is the tracked
in-bounds count), and a constant-filled matrix downsamples to that constant
at every cell.  (On the empty matrix the code instead throws: see the
counterexample.) -/
theorem c5_downsample_block_mean (m : Matrix) (t : ℕ) (c : ℚ)
    (hm : m ≠ []) (ht : 0 < t)
    (hsq : ∀ row ∈ m, row.length = m.length) :
    ∃ d, downsampleMatrix m t = some d ∧
      d.length = (m.length + (m.length + t - 1) / t - 1) / ((m.length + t - 1) / t) ∧
      (∀ row ∈ d, row.length = d.length) ∧
      (∀ i j, i < d.length → j < d.length →
        entry d i j
          = (blockValues m ((m.length + t - 1) / t) i j).sum
            / ((blockValues m ((m.length + t - 1) / t) i j).length : ℚ)) ∧
      ((∀ row ∈ m, ∀ x ∈ row, x = c) →
        ∀ i j, i < d.length → j < d.length → entry d i j = c) := by
  have hs : 0 < m.length := List.length_pos.mpr hm
  have hbs : 0 < (m.length + t - 1) / t := by
    have h1 : 1 * t ≤ m.length + t - 1 := by omega
    have := (Nat.le_div_iff_mul_le ht).mpr h1
    omega
  refine ⟨(List.range ((m.length + (m.length + t - 1) / t - 1) / ((m.length + t - 1) / t))).map
      fun i => (List.range ((m.length + (m.length + t - 1) / t - 1) / ((m.length + t - 1) / t))).map
        fun j => downsampleCell m ((m.length + t - 1) / t) i j, ?_, ?_, ?_, ?_, ?_⟩
  · simp only [downsampleMatrix, if_neg (show ¬ m.length = 0 by omega),
      if_neg (show ¬ t = 0 by omega)]
  · simp
  · intro row hrow
    rw [List.mem_map] at hrow
    obtain ⟨i, -, hrow⟩ := hrow
    rw [← hrow]
    simp
  · intro i j hi hj
    simp only [List.length_map, List.length_range] at hi hj
    rw [entry_map_range _ hi hj, downsampleCell, blockSum_eq, blockCount_eq]
    by_cases hc : 0 < (blockValues m ((m.length + t - 1) / t) i j).length
    · rw [if_pos hc]
    · rw [if_neg hc]
      have hnil : blockValues m ((m.length + t - 1) / t) i j = [] :=
        List.length_eq_zero.mp (by omega)
      rw [hnil]
      simp
  · intro hunif i j hi hj
    simp only [List.length_map, List.length_range] at hi hj
    rw [entry_map_range _ hi hj, downsampleCell]
    have hvals : ∀ x ∈ blockValues m ((m.length + t - 1) / t) i j, x = c := by
      intro x hx
      rw [blockValues, List.mem_flatMap] at hx
      obtain ⟨bi, -, hx⟩ := hx
      rw [List.mem_filterMap] at hx
      obtain ⟨bj, -, hx⟩ := hx
      by_cases hg : i * ((m.length + t - 1) / t) + bi < m.length ∧
          j * ((m.length + t - 1) / t) + bj < m.length
      · rw [if_pos hg, Option.some_inj] at hx
        rw [← hx]
        have hrmem : m.getD (i * ((m.length + t - 1) / t) + bi) [] ∈ m := by
          rw [List.getD_eq_getElem _ _ hg.1]
          exact List.getElem_mem hg.1
        have hrlen : (m.getD (i * ((m.length + t - 1) / t) + bi) []).length
            = m.length := hsq _ hrmem
        rw [entry_eq_getD, List.getD_eq_getElem _ _ (by omega)]
        exact hunif _ hrmem _ (List.getElem_mem (by omega))
      · rw [if_neg hg] at hx
        cases hx
    have hmem : entry m (i * ((m.length + t - 1) / t))
        (j * ((m.length + t - 1) / t)) ∈ blockValues m ((m.length + t - 1) / t) i j := by
      rw [blockValues, List.mem_flatMap]
      refine ⟨0, List.mem_range.mpr hbs, ?_⟩
      rw [List.mem_filterMap]
      refine ⟨0, List.mem_range.mpr hbs, ?_⟩
      rw [if_pos ⟨by simpa using mul_lt_of_lt_ceil hbs hi,
        by simpa using mul_lt_of_lt_ceil hbs hj⟩]
      simp
    have hlenpos : 0 < (blockValues m ((m.length + t - 1) / t) i j).length :=
      List.length_pos.mpr (List.ne_nil_of_mem hmem)
    rw [if_pos (by rw [blockCount_eq]; exact hlenpos), blockSum_eq, blockCount_eq,
      List.sum_eq_card_nsmul _ c hvals, nsmul_eq_mul]
    exact mul_div_cancel_left₀ c (by positivity)

/-- C5 counterexample: the claim as stated fails on the empty (0 × 0)
square matrix — `Math.ceil(0 / 0)` is `NaN` and `Array(NaN)` throws a
`RangeError`, so the downsampler produces no output at all (modelled as
`none`), rather than a matrix of side `ceil(sourceSize / blockSize)`. -/
theorem c5_downsample_block_mean_counterexample :
    downsampleMatrix ([] : Matrix) 50 = none ∧
    ¬ ∃ d, downsampleMatrix ([] : Matrix) 50 = some d := by
  refine ⟨rfl, ?_⟩
  rintro ⟨d, hd⟩
  cases hd.symm.trans (rfl : downsampleMatrix ([] : Matrix) 50 = none)

/-- Witness for C5: a 3 × 3 constant matrix, target 2 (so `blockSize = 2`
with partial edge blocks). -/
theorem c5_downsample_block_mean_witness :
    (([[2, 2, 2], [2, 2, 2], [2, 2, 2]] : Matrix) ≠ [] ∧ 0 < 2 ∧
      (∀ row ∈ ([[2, 2, 2], [2, 2, 2], [2, 2, 2]] : Matrix),
        row.length = ([[2, 2, 2], [2, 2, 2], [2, 2, 2]] : Matrix).length)) ∧
    (∃ d, downsampleMatrix [[2, 2, 2], [2, 2, 2], [2, 2, 2]] 2 = some d ∧
      d.length = (3 + (3 + 2 - 1) / 2 - 1) / ((3 + 2 - 1) / 2) ∧
      (∀ row ∈ d, row.length = d.length) ∧
      (∀ i j, i < d.length → j < d.length →
        entry d i j
          = (blockValues [[2, 2, 2], [2, 2, 2], [2, 2, 2]] ((3 + 2 - 1) / 2) i j).sum
            / ((blockValues [[2, 2, 2], [2, 2, 2], [2, 2, 2]] ((3 + 2 - 1) / 2) i j).length : ℚ)) ∧
      ((∀ row ∈ ([[2, 2, 2], [2, 2, 2], [2, 2, 2]] : Matrix), ∀ x ∈ row, x = (2 : ℚ)) →
        ∀ i j, i < d.length → j < d.length → entry d i j = 2)) :=
  ⟨⟨by decide, by decide, by decide⟩,
    c5_downsample_block_mean [[2, 2, 2], [2, 2, 2], [2, 2, 2]] 2 2
      (by decide) (by decide) (by decide)⟩


/-- C6 (amended): for every nonempty square matrix with
`sourceSize ≤ targetSize`, the downsampler returns the input unchanged
(`blockSize = 1`, identity copy), and the heatmap pipeline invokes
downsampling only when the matrix side exceeds the target (fixed at 100):
at side ≤ 100 the processing stage passes the matrix through unchanged.
(On the empty matrix the downsampler itself instead throws: see the
counterexample.) -/
theorem c6_downsample_identity :
    (∀ (m : Matrix) (t : ℕ), m ≠ [] → m.length ≤ t →
        (∀ row ∈ m, row.length = m.length) →
      downsampleMatrix m t = some m) ∧
    (∀ m : Matrix, m.length ≤ 100 → heatmapDownsampleStep m = some m) := by
  constructor
  · intro m t hm hle hsq
    have hs : 0 < m.length := List.length_pos.mpr hm
    have ht : 0 < t := by omega
    have hbs : (m.length + t - 1) / t = 1 :=
      Nat.div_eq_of_lt_le (by omega) (by omega)
    simp only [downsampleMatrix, if_neg (show ¬ m.length = 0 by omega),
      if_neg (show ¬ t = 0 by omega), hbs]
    rw [Option.some_inj]
    have has : (m.length + 1 - 1) / 1 = m.length := by omega
    rw [has]
    apply List.ext_getElem
    · simp
    · intro i h1 h2
      rw [List.getElem_map, List.getElem_range]
      have hi : i < m.length := by simpa using h2
      apply List.ext_getElem
      · rw [List.length_map, List.length_range, hsq _ (List.getElem_mem hi)]
      · intro j h3 h4
        rw [List.getElem_map, List.getElem_range]
        have hj : j < m.length := by simpa using h3
        have hguard : i * 1 + 0 < m.length ∧ j * 1 + 0 < m.length := by omega
        have hr1 : List.range 1 = [0] := rfl
        have hcount : blockCount m 1 i j = 1 := by
          simp only [blockCount, hr1, List.map_cons, List.map_nil,
            List.sum_cons, List.sum_nil, Nat.add_zero]
          rw [if_pos (show i * 1 < m.length ∧ j * 1 < m.length by omega)]
        have hsum : blockSum m 1 i j = entry m i j := by
          simp only [blockSum, hr1, List.map_cons, List.map_nil,
            List.sum_cons, List.sum_nil, add_zero]
          rw [if_pos (show i * 1 < m.length ∧ j * 1 < m.length by omega)]
          simp [Nat.mul_one]
        rw [downsampleCell, hcount, hsum, if_pos (by omega)]
        rw [entry_eq_getElem hi (by omega)]
        push_cast
        exact div_one _
  · intro m hle
    rw [heatmapDownsampleStep, if_neg (by omega)]

/-- C6 counterexample: the claim as stated fails on the empty square matrix
(`sourceSize = 0 ≤ 100`): instead of returning the input unchanged, the
code computes `blockSize = 0`, `actualSize = Math.ceil(0 / 0) = NaN`, and
`Array(NaN)` throws a `RangeError` (modelled as `none`). -/
theorem c6_downsample_identity_counterexample :
    ([] : Matrix).length ≤ 100 ∧
    downsampleMatrix ([] : Matrix) 100 = none ∧
    downsampleMatrix ([] : Matrix) 100 ≠ some ([] : Matrix) := by
  refine ⟨by simp, rfl, ?_⟩
  intro h
  cases h.symm.trans (rfl : downsampleMatrix ([] : Matrix) 100 = none)

/-- Witness for C6: a 2 × 2 matrix with target 7, and the pipeline stage at
side ≤ 100. -/
theorem c6_downsample_identity_witness :
    ((([[1, 2], [3, 4]] : Matrix) ≠ [] ∧ ([[1, 2], [3, 4]] : Matrix).length ≤ 7 ∧
      (∀ row ∈ ([[1, 2], [3, 4]] : Matrix),
        row.length = ([[1, 2], [3, 4]] : Matrix).length)) ∧
      ([[1, 2], [3, 4]] : Matrix).length ≤ 100) ∧
    downsampleMatrix [[1, 2], [3, 4]] 7 = some [[1, 2], [3, 4]] ∧
    heatmapDownsampleStep [[1, 2], [3, 4]] = some [[1, 2], [3, 4]] :=
  ⟨⟨⟨by decide, by decide, by decide⟩, by decide⟩,
    c6_downsample_identity.1 [[1, 2], [3, 4]] 7 (by decide) (by decide) (by decide),
    c6_downsample_identity.2 [[1, 2], [3, 4]] (by decide)⟩


/-! ### Render-strategy selection (`app.js`, `initializeVisualization`) -/

/-- The performance modes of `app.js` (`state.performanceMode`).  The
internal value `performance` is the mode the UI labels "Speed" and the spec
calls `speed`. -/
inductive PerfMode where
  | auto
  | quality
  | performance
deriving DecidableEq

/-- `initializeVisualization`: `auto` selects the canvas (immediate-mode)
backend iff `data.tokens.length > 150`; `performance` always selects it;
otherwise (`quality`) the SVG (retained-mode) backend is used. -/
def useCanvas (mode : PerfMode) (tokenCount : ℕ) : Bool :=
  match mode with
  | .auto => 150 < tokenCount
  | .performance => true
  | .quality => false

/-- C7: `speed` (internal value `performance`) always selects immediate
mode, `quality` always retained mode, and `auto` selects immediate mode
exactly when the node count exceeds 150 — so 150 nodes render retained and
151 immediate. -/
theorem c7_render_strategy_selection :
    (∀ n, useCanvas .performance n = true) ∧
    (∀ n, useCanvas .quality n = false) ∧
    (∀ n, useCanvas .auto n = true ↔ 150 < n) ∧
    useCanvas .auto 150 = false ∧ useCanvas .auto 151 = true := by
  refine ⟨fun n => rfl, fun n => rfl, fun n => ?_, by decide, by decide⟩
  simp [useCanvas]

/-! ### Fallback coordinates (`embedding-space.js`) -/

/-- `EmbeddingSpaceVisualization.generateRandomCoordinates`, with
`Math.random()` modelled as an ambient sample stream `rand : ℕ → ℚ` (the
k-th call returns `rand k`); each token consumes 3 (or 2) samples in call
order, and each component is `(Math.random() - 0.5) * 2`. -/
def generateRandomCoordinates (tokens : List String) (dimensions : ℕ)
    (rand : ℕ → ℚ) : List (List ℚ) :=
  (List.range tokens.length).map fun i =>
    if dimensions = 3 then
      [(rand (3 * i) - 1/2) * 2, (rand (3 * i + 1) - 1/2) * 2,
        (rand (3 * i + 2) - 1/2) * 2]
    else
      [(rand (2 * i) - 1/2) * 2, (rand (2 * i + 1) - 1/2) * 2]

/-- `EmbeddingSpaceVisualization.processEmbeddings`: if embeddings are
present and the reduction service succeeds, use its coordinates; on service
failure or absent embeddings fall back to random coordinates.  The code
only assigns `this.reducedCoordinates` (plus a console warning); it stores
no fallback mark of any kind. -/
def processEmbeddingsCoords (embeddings : Option (List (List ℚ)))
    (serviceResult : Option (List (List ℚ))) (tokens : List String)
    (dimensions : ℕ) (rand : ℕ → ℚ) : List (List ℚ) :=
  match embeddings with
  | none => generateRandomCoordinates tokens dimensions rand
  | some _ =>
    match serviceResult with
    | some coords => coords
    | none => generateRandomCoordinates tokens dimensions rand

/-- C8 (code side): on absent embeddings (and likewise on service failure)
the fallback produces exactly one coordinate per token, each with 3 (or 2)
components, every component lying in `[-1, 1)` when each `Math.random()`
sample lies in `[0, 1)`.  (The marking the claim requires does not exist in
the code: the result is bare coordinates.) -/
theorem c8_fallback_coordinates (tokens : List String) (dimensions : ℕ)
    (rand : ℕ → ℚ) (hrand : ∀ k, 0 ≤ rand k ∧ rand k < 1) :
    (processEmbeddingsCoords none none tokens dimensions rand
      = generateRandomCoordinates tokens dimensions rand) ∧
    (processEmbeddingsCoords (some [[5]]) none tokens dimensions rand
      = generateRandomCoordinates tokens dimensions rand) ∧
    (generateRandomCoordinates tokens dimensions rand).length = tokens.length ∧
    (∀ coord ∈ generateRandomCoordinates tokens dimensions rand,
      coord.length = (if dimensions = 3 then 3 else 2) ∧
      ∀ x ∈ coord, -1 ≤ x ∧ x < 1) := by
  refine ⟨rfl, rfl, by simp [generateRandomCoordinates], ?_⟩
  intro coord hcoord
  rw [generateRandomCoordinates, List.mem_map] at hcoord
  obtain ⟨i, -, hcoord⟩ := hcoord
  have hbound : ∀ k, -1 ≤ (rand k - 1/2) * 2 ∧ (rand k - 1/2) * 2 < 1 := by
    intro k
    obtain ⟨h0, h1⟩ := hrand k
    constructor <;> linarith
  by_cases hd : dimensions = 3
  · rw [if_pos hd] at hcoord
    rw [← hcoord, if_pos hd]
    refine ⟨rfl, ?_⟩
    intro x hx
    rcases List.mem_cons.mp hx with h | hx
    · exact h ▸ hbound _
    rcases List.mem_cons.mp hx with h | hx
    · exact h ▸ hbound _
    rcases List.mem_cons.mp hx with h | hx
    · exact h ▸ hbound _
    · cases hx
  · rw [if_neg hd] at hcoord
    rw [← hcoord, if_neg hd]
    refine ⟨rfl, ?_⟩
    intro x hx
    rcases List.mem_cons.mp hx with h | hx
    · exact h ▸ hbound _
    rcases List.mem_cons.mp hx with h | hx
    · exact h ▸ hbound _
    · cases hx

/-- Witness for C8: the fallback theorem applied to one token, 3
dimensions, and the constant-zero sample stream (on which a component
attains exactly `-1`). -/
theorem c8_fallback_coordinates_witness :
    (∀ _k : ℕ, 0 ≤ (0 : ℚ) ∧ (0 : ℚ) < 1) ∧
    ((processEmbeddingsCoords none none ["hello"] 3 (fun _ => 0)
      = generateRandomCoordinates ["hello"] 3 (fun _ => 0)) ∧
    (processEmbeddingsCoords (some [[5]]) none ["hello"] 3 (fun _ => 0)
      = generateRandomCoordinates ["hello"] 3 (fun _ => 0)) ∧
    (generateRandomCoordinates ["hello"] 3 (fun _ => 0)).length = (["hello"] : List String).length ∧
    (∀ coord ∈ generateRandomCoordinates ["hello"] 3 (fun _ => 0),
      coord.length = (if 3 = 3 then 3 else 2) ∧
      ∀ x ∈ coord, -1 ≤ x ∧ x < 1)) :=
  ⟨fun _ => ⟨le_refl 0, by norm_num⟩,
    c8_fallback_coordinates ["hello"] 3 (fun _ => 0)
      (fun _ => ⟨le_refl 0, by norm_num⟩)⟩

/-! ### Teardown (`embedding-space.js` destroy / animate) -/

/-- Modelled from the source (`embedding-space.js`): the per-instance
runtime state the teardown claim is about.  `rafLoopActive` is true while
the `animate()` `requestAnimationFrame` self-rescheduling loop is live;
`resizeHandlers` holds the identities of "resize" listeners this instance
registered on `window` (`0` denotes the arrow function created in
`setupInteractions`, `1` the distinct arrow function created inside
`destroy()`). -/
structure EmbRuntime where
  rafLoopActive : Bool
  resizeHandlers : List ℕ
deriving DecidableEq

/-- State after `init()`: `animate()` has started the rAF loop
(rescheduling itself unconditionally, with no stop flag anywhere in the
class) and `setupInteractions` registered the resize arrow function. -/
def embInit : EmbRuntime := ⟨true, [0]⟩

/-- `EmbeddingSpaceVisualization.destroy()`: disposes the renderer and
scene resources, then calls
`window.removeEventListener("resize", () => this.onWindowResize())` with a
freshly created arrow function (identity 1) — which was never registered,
so no handler is removed — and performs no `cancelAnimationFrame` and sets
no flag read by `animate()`, so the rAF loop stays active. -/
def embDestroy (s : EmbRuntime) : EmbRuntime :=
  { rafLoopActive := s.rafLoopActive,
    resizeHandlers := s.resizeHandlers.filter fun h => h != 1 }

/-- C9 (code side, at the failing input): `destroy()` is total and a second
call changes nothing (no exception), but after the first `destroy()` the
embedding view's per-frame callback is still active and its resize listener
is still registered — the teardown is idempotent yet incomplete. -/
theorem c9_teardown_incomplete :
    embDestroy (embDestroy embInit) = embDestroy embInit ∧
    (embDestroy embInit).rafLoopActive = true ∧
    (embDestroy embInit).resizeHandlers = [0] := by
  decide

end NeuralEcho
